import Mathlib

/-!
Verification of the HTMLBuilder template compiler.

This file gives a shallow embedding of the HTMLBuilder sources
(`src/HTMLBuilder.ts` and the variants bundled in `src/HTMLBuilder.js`) and
proves properties of the per-line grammar parser, the template segmenter,
the tree-assembly algorithm and the event registry.

Conventions of the embedding:
* JavaScript strings are modelled as Lean `String` values, with the string
  operations used by the source (`trim`, `split`, `replace`, `startsWith`,
  `indexOf`) re-implemented by structural recursion over `String.data` so
  that every definition evaluates inside the kernel.
* DOM elements are modelled by the pure record `ElementData`;
  `document.createElement` plus the subsequent mutations of one line's
  element are folded into `createElementFromLine`.
* The DOM tree built by `prepend` / `appendChild` is modelled by the
  inductive `Tree`; the assembler is polymorphic in the node payload,
  exactly as the source moves `HTMLElement` values around opaquely.
* JavaScript object identity (needed for the event registry, which stores
  the caller's listener object by reference) is modelled with an explicit
  heap: a list of `Listener` records addressed by index.
* JavaScript truthiness of the values that actually occur (`null`,
  `undefined`, `""`, `0`) is modelled explicitly at each use site.
-/

namespace HTMLB

/-- Character class of the regex escape `\w`: ASCII letters, digits and underscore. -/
def isWordChar (c : Char) : Bool := c.isAlpha || c.isDigit || c = '_'

/-- Character class `[\w-]` used by the class and id groups of the regex. -/
def isWordDashChar (c : Char) : Bool := isWordChar c || c = '-'

/-- Character class `[\w;]` used by the events group of the regex. -/
def isWordSemiChar (c : Char) : Bool := isWordChar c || c = ';'

/-- Splitting on a single separator character, mirroring JavaScript
`String.prototype.split` with a one-character separator; `"".split(sep)`
yields `[""]`, and adjacent separators yield empty fragments. -/
def splitChar (sep : Char) : List Char → List (List Char)
  | [] => [[]]
  | c :: cs =>
    if c = sep then [] :: splitChar sep cs
    else
      match splitChar sep cs with
      | [] => [[c]]
      | t :: ts => (c :: t) :: ts

/-- Whitespace trimming on character lists, mirroring `String.prototype.trim`. -/
def trimChars (cs : List Char) : List Char :=
  ((cs.dropWhile Char.isWhitespace).reverse.dropWhile Char.isWhitespace).reverse

/-- JavaScript `trim` on strings. -/
def jsTrim (s : String) : String := ⟨trimChars s.data⟩

/-- Replacement of the first occurrence of a non-empty pattern, the recursion
behind JavaScript `String.prototype.replace` with a string pattern. -/
def replaceFirstAux (sub repl : List Char) : List Char → List Char
  | [] => []
  | c :: cs =>
    if sub.isPrefixOf (c :: cs) then repl ++ (c :: cs).drop sub.length
    else c :: replaceFirstAux sub repl cs

/-- JavaScript `s.replace(sub, repl)` for a plain string pattern: only the
first occurrence is replaced; an empty pattern inserts at the start. -/
def replaceFirst (sub repl s : List Char) : List Char :=
  if sub = [] then repl ++ s else replaceFirstAux sub repl s

/-- Result of `REGEX.exec(line)` for the pattern of `HTMLBuilder.ts`:
the six capture groups.  `tagname` and `classesRaw` are always captured
strings (the class group captures `""` when no class is present, which is
falsy in JavaScript); the remaining groups are absent (`undefined`) when
their optional part did not participate in the match. -/
structure LineMatch where
  tagname : String
  classesRaw : String
  idRaw : Option String
  contentRaw : Option String
  attributesRaw : Option String
  eventsRaw : Option String
deriving DecidableEq, Repr

/-- Advance to the first position where the regex can match: the mandatory
first group `(\w{1,})` forces the match to start at the first word
character; `exec` returns `null` when there is none. -/
def findWordStart : List Char → Option (List Char)
  | [] => none
  | c :: cs => if isWordChar c then some (c :: cs) else findWordStart cs

/-- Greedy matching of the class group `((?:\.[\w-]*){0,})`: repeatedly
consume a dot followed by a maximal `[\w-]*` run.  Returns the consumed
characters and the rest.  The fuel argument (instantiated with the length
of the input) keeps the recursion structural; each iteration consumes at
least the dot, so the fuel never runs out. -/
def classesRunAux : Nat → List Char → List Char × List Char
  | 0, cs => ([], cs)
  | _ + 1, [] => ([], [])
  | fuel + 1, c :: cs =>
    if c = '.' then
      let seg := cs.takeWhile isWordDashChar
      let p := classesRunAux fuel (cs.drop seg.length)
      ('.' :: (seg ++ p.1), p.2)
    else ([], c :: cs)

/-- Index of the last occurrence of a character, used for the greedy groups
`\((.*)\)` and `\[(.*)\]`: the greedy `.*` makes the closing delimiter
bind to its last occurrence in the rest of the line. -/
def lastIndexOfChar (ch : Char) : List Char → Option Nat
  | [] => none
  | c :: cs =>
    match lastIndexOfChar ch cs with
    | some j => some (j + 1)
    | none => if c = ch then some 0 else none

/-- Greedy matching of an optional delimited group such as `(?:\((.*)\)){0,1}`:
if the opening delimiter is present and a closing delimiter occurs later,
capture up to the last closing delimiter; otherwise the whole optional
group matches nothing. -/
def delimGroup (openCh closeCh : Char) (cs : List Char) : Option (List Char) × List Char :=
  match cs with
  | [] => (none, [])
  | c :: rest =>
    if c = openCh then
      match lastIndexOfChar closeCh rest with
      | some j => (some (rest.take j), rest.drop (j + 1))
      | none => (none, c :: rest)
    else (none, c :: rest)

/-- Greedy matching of the events group `(?:\@([\w;]*)){0,}`: a quantified
capture group keeps the capture of its last iteration.  Fuel as in
`classesRunAux`. -/
def eventsRunAux : Nat → Option (List Char) → List Char → Option (List Char)
  | 0, acc, _ => acc
  | fuel + 1, acc, cs =>
    match cs with
    | '@' :: rest =>
      let seg := rest.takeWhile isWordSemiChar
      eventsRunAux fuel (some seg) (rest.drop seg.length)
    | _ => acc

/-- The regular expression of `HTMLBuilder.ts`,
`(\w{1,})((?:\.[\w-]*){0,}){0,}(#[\w-]{0,}){0,1}(?:\((.*)\)){0,1}(?:\[(.*)\]){0,1}(?:\@([\w;]*)){0,}`,
executed on a line: the match starts at the first word character, each
group matches greedily in sequence, and all groups after the tag are
optional.  Returns `none` exactly when `exec` returns `null`. -/
def execRegex (line : List Char) : Option LineMatch :=
  match findWordStart line with
  | none => none
  | some s0 =>
    let tag := s0.takeWhile isWordChar
    let s1 := s0.drop tag.length
    let cls := classesRunAux s1.length s1
    let idp : Option (List Char) × List Char :=
      match cls.2 with
      | '#' :: rest =>
        (some ('#' :: rest.takeWhile isWordDashChar), rest.drop (rest.takeWhile isWordDashChar).length)
      | s2 => (none, s2)
    let con := delimGroup '(' ')' idp.2
    let att := delimGroup '[' ']' con.2
    let evs := eventsRunAux att.2.length none att.2
    some ⟨⟨tag⟩, ⟨cls.1⟩, idp.1.map String.mk, con.1.map String.mk,
          att.1.map String.mk, evs.map String.mk⟩

/-- The parsed, pre-materialization representation of one line: the element
`createElement` produces after all mutations of `_createElementFromLine`
(classes, attributes, id, text child, resolved event names). -/
structure ElementData where
  tag : String
  classes : List String
  id : Option String
  content : Option String
  attributes : List (String × String)
  events : List String
deriving DecidableEq, Repr

/-- True when the first character of the string is a digit, mirroring
`/\d/.test(s[0])` (false on the empty string, where `s[0]` is `undefined`). -/
def firstCharIsDigit (s : String) : Bool :=
  match s.data with
  | [] => false
  | c :: _ => c.isDigit

/-- Model of `element.classList.add`: duplicates are ignored. -/
def classListAdd (classes : List String) (c : String) : List String :=
  if classes.contains c then classes else classes ++ [c]

/-- Model of `element.setAttribute`: an existing attribute of the same name
is overwritten, otherwise the attribute is appended. -/
def setAttribute (attrs : List (String × String)) (n v : String) : List (String × String) :=
  if attrs.any (fun p => p.1 == n) then attrs.map (fun p => if p.1 == n then (n, v) else p)
  else attrs ++ [(n, v)]

/-- One iteration of the class loop of `_createElementFromLine`: a class
name starting with a digit is rejected (diagnostic only), otherwise it is
added to the class list. -/
def applyClassFragment (classes : List String) (c : String) : List String :=
  if firstCharIsDigit c then classes else classListAdd classes c

/-- One iteration of the attribute loop of `_createElementFromLine`: the
digit test applies to the untrimmed fragment, the fragment is then trimmed;
a fragment containing `=` is split on `=` and contributes the fragments at
indices 0 and 1 of the split as name and value, otherwise the whole
trimmed fragment becomes a presence attribute with empty value. -/
def applyAttrFragment (attrs : List (String × String)) (attr : String) : List (String × String) :=
  if firstCharIsDigit attr then attrs
  else
    let t := trimChars attr.data
    if t.contains '=' then
      let parts := splitChar '=' t
      setAttribute attrs ⟨parts.headD []⟩ ⟨parts.getD 1 []⟩
    else setAttribute attrs ⟨t⟩ ""

/-- One iteration of the events loop: an event name starting with a digit
is rejected, otherwise the name is recorded (lookup against the registry
and `addEventListener` happen on the host side). -/
def applyEventName (evs : List String) (n : String) : List String :=
  if firstCharIsDigit n then evs else evs ++ [n]

/-- Model of `_createElementFromLine` of `HTMLBuilder.ts`: run the regex,
fail (`throw`) when no tag is captured, then apply classes, attributes, id,
decoded text content and event names to a fresh element.  `sep` is the
configurable attribute separator `SYMBOL_BETWEEN_ATTRIBUTES`; `decode` is
the host entity-decoding capability used for the text content. -/
def createElementFromLine (sep : Char) (decode : String → String) (line : String) :
    Except String ElementData :=
  match execRegex line.data with
  | none => .error ("HTMLBuilder: unable to parse a line: " ++ line)
  | some m =>
    if m.tagname = "" then .error ("HTMLBuilder: unable to parse a line: " ++ line)
    else
      let classes :=
        if m.classesRaw ≠ "" then
          ((splitChar '.' m.classesRaw.data).map String.mk).filter (fun v => v != "")
        else []
      let attrFrags :=
        match m.attributesRaw with
        | some s => if s ≠ "" then (splitChar sep s.data).map String.mk else []
        | none => []
      let evNames :=
        match m.eventsRaw with
        | some s =>
          if s ≠ "" then ((splitChar ';' s.data).map String.mk).filter (fun v => v != "")
          else []
        | none => []
      let idField :=
        match m.idRaw with
        | some s =>
          let i : String := ⟨replaceFirst ['#'] [] s.data⟩
          if i ≠ "" then some i else none
        | none => none
      let contentField :=
        match m.contentRaw with
        | some s => if s ≠ "" then some (decode s) else none
        | none => none
      .ok { tag := m.tagname
            classes := classes.foldl applyClassFragment []
            id := idField
            content := contentField
            attributes := attrFrags.foldl applyAttrFragment []
            events := evNames.foldl applyEventName [] }

/-- Model of `_level`: the indentation depth of a line is the number of
leading `>` markers. -/
def level (line : String) : Nat :=
  levelAux line.data
where
  levelAux : List Char → Nat
    | [] => 0
    | c :: cs => if c = '>' then levelAux cs + 1 else 0

/-- Model of `_extractLinesFrom`: trim the template, split it on newlines
and trim every line. -/
def extractLinesFrom (template : String) : List String :=
  ((splitChar '\n' (jsTrim template).data).map String.mk).map jsTrim

/-- The DOM subtree handled by the assembler: a node payload plus the
ordered list of element children. -/
inductive Tree (α : Type) : Type where
  | node : α → List (Tree α) → Tree α

/-- Payload of the root node of a tree. -/
def Tree.label {α : Type} : Tree α → α
  | .node l _ => l

/-- Children of the root node of a tree. -/
def Tree.children {α : Type} : Tree α → List (Tree α)
  | .node _ cs => cs

/-- Model of `parent.prepend(child)`: the child becomes the first child. -/
def Tree.prependChild {α : Type} : Tree α → Tree α → Tree α
  | .node l cs, c => .node l (c :: cs)

/-- Model of `parent.appendChild(child)`: the child becomes the last child. -/
def Tree.appendChild {α : Type} : Tree α → Tree α → Tree α
  | .node l cs, c => .node l (cs ++ [c])

/-- The depth stored at index `i` of the pending children list, `children[i][1]`. -/
def depthAt {α : Type} (children : List (Tree α × Nat)) (i : Nat) : Nat :=
  ((children.get? i).map Prod.snd).getD 0

/-- Model of `_maxLevel`: starting from the depth of the first entry, keep
the larger of the accumulator and each entry's depth. -/
def maxLevel {α : Type} (children : List (Tree α × Nat)) : Nat :=
  children.foldl (fun m c => if m < c.2 then c.2 else m) (depthAt children 0)

/-- Model of `_getIndexOfDeepestElement` of `HTMLBuilder.ts`: when the
maximum depth is 1 the last entry is chosen; otherwise `lastIndex` starts
at 1 and is overwritten by every index whose depth equals the maximum, so
the result is the last index at the maximum depth. -/
def getIndexOfDeepestElement {α : Type} (children : List (Tree α × Nat)) : Nat :=
  if maxLevel children = 1 then children.length - 1
  else
    (List.range children.length).foldl
      (fun last i => if depthAt children i = maxLevel children then i else last) 1

/-- Model of `_getIndexOfNearestParentElementOf`: scan the indices before
the deepest element and keep the last one whose depth equals the deepest
element's depth minus one (`null` when there is none).  The subtraction is
on JavaScript numbers, hence the cast to `Int`. -/
def getIndexOfNearestParentElementOf {α : Type} (indexOfDeepest : Nat)
    (children : List (Tree α × Nat)) : Option Nat :=
  (List.range indexOfDeepest).foldl
    (fun last i =>
      if (depthAt children i : Int) = (depthAt children indexOfDeepest : Int) - 1 then some i
      else last)
    none

/-- One iteration of the assembly loop of `HTMLBuilder.ts` (`generate`,
while loop): locate the deepest element and its nearest parent, `prepend`
the deepest element to the parent when the parent index is not `null`
(the source checks `!== null` explicitly so that index 0 still counts),
otherwise to the root, and `splice` the deepest element out of the list. -/
def assembleStep {α : Type} (root : Tree α) (children : List (Tree α × Nat)) :
    Tree α × List (Tree α × Nat) :=
  let iD := getIndexOfDeepestElement children
  match children.get? iD with
  | none => (root, children)
  | some d =>
    match getIndexOfNearestParentElementOf iD children with
    | some iP =>
      match children.get? iP with
      | none => (root, children.eraseIdx iD)
      | some p => (root, (children.set iP (p.1.prependChild d.1, p.2)).eraseIdx iD)
    | none => (root.prependChild d.1, children.eraseIdx iD)

/-- The while loop `while (childrenElements.length > 0)`, with explicit
fuel; `assemble` supplies fuel equal to the list length, which suffices
because every iteration removes exactly one entry. -/
def assembleLoop {α : Type} : Nat → Tree α × List (Tree α × Nat) → Tree α × List (Tree α × Nat)
  | 0, s => s
  | fuel + 1, (root, children) =>
    if children.isEmpty then (root, children)
    else assembleLoop fuel (assembleStep root children)

/-- The tree assembler of one template group: run the reduction until the
pending list is exhausted and return the root. -/
def assemble {α : Type} (root : Tree α) (children : List (Tree α × Nat)) : Tree α :=
  (assembleLoop children.length (root, children)).1

/-- Model of `_getIndexOfDeepestElement` of the legacy compiled variant in
`HTMLBuilder.js`, which returns index 0 (the first entry) when the maximum
depth is 1. -/
def getIndexOfDeepestElementLegacy {α : Type} (children : List (Tree α × Nat)) : Nat :=
  if maxLevel children = 1 then 0
  else
    (List.range children.length).foldl
      (fun last i => if depthAt children i = maxLevel children then i else last) 1

/-- One iteration of the assembly loop of the legacy compiled variant in
`HTMLBuilder.js`: it uses `appendChild` and tests the parent index for
truthiness (`indexOfNearestParent ? ... : ...`), so a parent index of 0 is
treated like `null` and the element is attached to the root. -/
def assembleStepLegacy {α : Type} (root : Tree α) (children : List (Tree α × Nat)) :
    Tree α × List (Tree α × Nat) :=
  let iD := getIndexOfDeepestElementLegacy children
  match children.get? iD with
  | none => (root, children)
  | some d =>
    match getIndexOfNearestParentElementOf iD children with
    | some iP =>
      if iP = 0 then (root.appendChild d.1, children.eraseIdx iD)
      else
        match children.get? iP with
        | none => (root, children.eraseIdx iD)
        | some p => (root, (children.set iP (p.1.appendChild d.1, p.2)).eraseIdx iD)
    | none => (root.appendChild d.1, children.eraseIdx iD)

/-- The legacy while loop, with fuel as in `assembleLoop`. -/
def assembleLoopLegacy {α : Type} : Nat → Tree α × List (Tree α × Nat) → Tree α × List (Tree α × Nat)
  | 0, s => s
  | fuel + 1, (root, children) =>
    if children.isEmpty then (root, children)
    else assembleLoopLegacy fuel (assembleStepLegacy root children)

/-- The legacy tree assembler of one template group. -/
def assembleLegacy {α : Type} (root : Tree α) (children : List (Tree α × Nat)) : Tree α :=
  (assembleLoopLegacy children.length (root, children)).1

/-- The collection loop of `generate` over all lines: every line of depth 0
is recorded together with its index among all lines. -/
def mainLinesGo : List String → Nat → List (String × Nat)
  | [], _ => []
  | l :: ls, i =>
    if level l = 0 then (l, i) :: mainLinesGo ls (i + 1) else mainLinesGo ls (i + 1)

/-- Model of the main-line collection of `generate`: the depth-0 lines in
source order, each with its index among all lines. -/
def mainLines (lines : List String) : List (String × Nat) := mainLinesGo lines 0

/-- The bound `nextMainLevel` of `generate`: the index of the next main
line, or the number of lines for the last group. -/
def groupBound (lines : List String) (mains : List (String × Nat)) (i : Nat) : Nat :=
  match mains.get? (i + 1) with
  | some m => m.2
  | none => lines.length

/-- The line indices visited by the child-collection loop of `generate`
for group `i`: `for (k = mainLevel + 1; k < nextMainLevel; k++)`. -/
def groupChildIdxs (lines : List String) (mains : List (String × Nat)) (i : Nat) : List Nat :=
  match mains.get? i with
  | some m => List.range' (m.2 + 1) (groupBound lines mains i - (m.2 + 1))
  | none => []

/-- Compilation of one template group in `generate`: parse the main line,
parse every child line together with its depth, and run the assembler. -/
def buildGroup (sep : Char) (decode : String → String) (lines : List String)
    (mains : List (String × Nat)) (i : Nat) : Except String (Tree ElementData) :=
  match mains.get? i with
  | none => .error "HTMLBuilder: no such group"
  | some m => do
    let mainElement ← createElementFromLine sep decode m.1
    let children ← (groupChildIdxs lines mains i).mapM (fun k => do
      let line := (lines.get? k).getD ""
      let child ← createElementFromLine sep decode line
      pure ((Tree.node child [] : Tree ElementData), level line))
    pure (assemble (Tree.node mainElement []) children)

/-- Model of `generate` of `HTMLBuilder.ts`: an empty or whitespace-only
template returns immediately; otherwise the lines are extracted, the main
lines are collected, and each group is compiled in source order; the
resulting root trees are appended to the parent container in that order. -/
def generate (sep : Char) (decode : String → String) (template : String) :
    Except String (List (Tree ElementData)) :=
  if (jsTrim template).length = 0 then .ok []
  else
    let lines := extractLinesFrom template
    let mains := mainLines lines
    (List.range mains.length).mapM (buildGroup sep decode lines mains)

/-- A listener object as passed to `bindEvent`.  `name` and `type` are
JavaScript strings or absent; the callback is opaque (only its identity
matters) and absent when the field is missing. -/
structure Listener where
  name : Option String
  type : Option String
  callback : Option Nat
  options : Option Nat
deriving DecidableEq, Repr, Inhabited

/-- JavaScript falsiness of a string-valued field: absent or the empty string. -/
def strFalsy : Option String → Bool
  | none => true
  | some s => s == ""

/-- The `on`-stripping of `bindEvent`: when the name starts with `on`, the
first occurrence of `on` is removed by `replace`. -/
def stripOn (s : String) : String :=
  if "on".data.isPrefixOf s.data then ⟨replaceFirst "on".data [] s.data⟩ else s

/-- Model of `bindEvent`.  JavaScript objects live in an explicit heap (a
list of `Listener` records) and are passed by reference (their index);
`EVENTS.push(event)` stores the reference.  The result is the new state
(heap, registry) together with the thrown error message, if any; a throw
happens before any mutation, so on error the state is unchanged. -/
def bindEvent (heap : List Listener) (events : List Nat) (i : Nat) :
    (List Listener × List Nat) × Option String :=
  match heap.get? i with
  | none => ((heap, events), some "bindEvent(): no such object")
  | some ev =>
    if strFalsy ev.name then
      ((heap, events), some "bindEvent(): cannot bind an event without a name.")
    else if strFalsy ev.type then
      ((heap, events), some "bindEvent(): cannot bind an event without a precise type.")
    else if ev.callback = none then
      ((heap, events), some "bindEvent(): cannot bind an event without a callback function.")
    else
      ((heap.set i { ev with name := ev.name.map stripOn }, events ++ [i]), none)

/-- The listener objects the registry currently refers to: `EVENTS` holds
references, so each stored binding is read through the heap. -/
def storedBindings (heap : List Listener) (events : List Nat) : List Listener :=
  events.map (fun j => (heap.get? j).getD default)

/-- Model of `_searchForEvent`: return the first stored binding whose
current name equals the requested name. -/
def searchForEvent (heap : List Listener) (events : List Nat) (nm : String) : Option Listener :=
  (storedBindings heap events).find? (fun e => e.name == some nm)

/-- Order correctness of an assembled tree whose payloads are source-line
positions: at every node, the children appear with strictly increasing
source positions, that is, in the order of their lines in the template. -/
inductive Ordered : Tree Nat → Prop where
  | node : ∀ (l : Nat) (cs : List (Tree Nat)),
      List.Chain' (fun a b => Tree.label a < Tree.label b) cs →
      (∀ c ∈ cs, Ordered c) → Ordered (.node l cs)

/-- The initial pending list of one group, as built by the child-collection
loop of `generate`, with each element labelled by its position among the
group's child lines and paired with its depth. -/
def initialPending (ds : List Nat) : List (Tree Nat × Nat) :=
  (List.range ds.length).map (fun i => ((Tree.node i [] : Tree Nat), ds.getD i 0))

/-- Entry of a pending list at an index, with a default entry out of range. -/
def entryAt (L : List (Tree Nat × Nat)) (i : Nat) : Tree Nat × Nat :=
  (L.get? i).getD (Tree.node 0 [], 0)

/-- Invariant: every pending entry has depth at least 1, as is the case for
the child lines of a group. -/
abbrev depthsPos (L : List (Tree Nat × Nat)) : Prop :=
  ∀ i, i < L.length → 1 ≤ (entryAt L i).2

/-- Invariant: a valid ancestor chain, in the sense of the specification:
every entry of depth at least 2 is preceded by an entry whose depth is
exactly one less. -/
abbrev validChain (L : List (Tree Nat × Nat)) : Prop :=
  ∀ i, i < L.length → 2 ≤ (entryAt L i).2 →
    ∃ j, j < i ∧ (entryAt L j).2 + 1 = (entryAt L i).2

/-- Invariant: the root labels of the pending entries are strictly
increasing along the list (labels are source positions). -/
abbrev labelsMono (L : List (Tree Nat × Nat)) : Prop :=
  ∀ i j, i < j → j < L.length → ((entryAt L i).1).label < ((entryAt L j).1).label

/-- Invariant: every pending tree is ordered. -/
abbrev allOrdered (L : List (Tree Nat × Nat)) : Prop :=
  ∀ i, i < L.length → Ordered (entryAt L i).1

/-- Invariant: the label of any pending entry one level deeper than a
pending entry `i` is smaller than the labels of the children already
attached to `i`'s tree (children are attached right to left). -/
abbrev childBound (L : List (Tree Nat × Nat)) : Prop :=
  ∀ i j, i < L.length → j < L.length → (entryAt L j).2 = (entryAt L i).2 + 1 →
    ∀ c ∈ ((entryAt L i).1).children, ((entryAt L j).1).label < c.label

/-- Invariant: the label of any pending depth-1 entry is smaller than the
labels of the children already attached to the root. -/
abbrev rootBound (R : Tree Nat) (L : List (Tree Nat × Nat)) : Prop :=
  ∀ j, j < L.length → (entryAt L j).2 = 1 →
    ∀ c ∈ R.children, ((entryAt L j).1).label < c.label

/-- Source index stored for group number `gi` in the main-line list. -/
def mainIdx (mains : List (String × Nat)) (gi : Nat) : Nat :=
  ((mains.get? gi).map Prod.snd).getD 0

/-! ### Basic lemmas about trees and list access -/

theorem Tree.label_prependChild {α : Type} (a c : Tree α) :
    (a.prependChild c).label = a.label := by
  cases a
  rfl

theorem Tree.children_prependChild {α : Type} (a c : Tree α) :
    (a.prependChild c).children = c :: a.children := by
  cases a
  rfl

theorem depthAt_eq_entryAt (L : List (Tree Nat × Nat)) (i : Nat) :
    depthAt L i = (entryAt L i).2 := by
  unfold depthAt entryAt
  cases L.get? i <;> rfl

theorem depthAt_eq {α : Type} (L : List (Tree α × Nat)) (i : Nat) (hi : i < L.length) :
    depthAt L i = L[i].2 := by
  unfold depthAt
  rw [List.get?_eq_getElem?, List.getElem?_eq_getElem hi]
  rfl

theorem entryAt_eq_getElem (L : List (Tree Nat × Nat)) (i : Nat) (hi : i < L.length) :
    entryAt L i = L[i] := by
  unfold entryAt
  rw [List.get?_eq_getElem?, List.getElem?_eq_getElem hi]
  rfl

theorem get?_eq_entryAt (L : List (Tree Nat × Nat)) (i : Nat) (hi : i < L.length) :
    L.get? i = some (entryAt L i) := by
  rw [entryAt_eq_getElem L i hi, List.get?_eq_getElem?, List.getElem?_eq_getElem hi]

theorem entryAt_eraseIdx (L : List (Tree Nat × Nat)) (k j : Nat) :
    entryAt (L.eraseIdx k) j = if j < k then entryAt L j else entryAt L (j + 1) := by
  unfold entryAt
  rw [List.get?_eq_getElem?, List.getElem?_eraseIdx]
  by_cases h : j < k <;> simp [h, List.get?_eq_getElem?]

theorem entryAt_set (L : List (Tree Nat × Nat)) (k j : Nat) (e : Tree Nat × Nat) :
    entryAt (L.set k e) j = if k = j ∧ k < L.length then e else entryAt L j := by
  unfold entryAt
  rw [List.get?_eq_getElem?, List.getElem?_set]
  by_cases h1 : k = j
  · subst h1
    by_cases h2 : k < L.length <;>
      simp [h2, List.get?_eq_getElem?, List.getElem?_eq_none, Nat.le_of_not_lt]
  · simp [h1, List.get?_eq_getElem?]

/-! ### A last-hit characterization of the scanning loops -/

theorem foldl_range_last {β : Type} (F : β → Nat → β) (P : Nat → Prop) (upd : Nat → β)
    (init : β) (hF : ∀ b i, (P i → F b i = upd i) ∧ (¬ P i → F b i = b)) (n : Nat) :
    ((List.range n).foldl F init = init ∧ ∀ i, i < n → ¬ P i) ∨
    (∃ i, i < n ∧ P i ∧ (∀ j, i < j → j < n → ¬ P j) ∧ (List.range n).foldl F init = upd i) := by
  induction n with
  | zero => exact Or.inl ⟨rfl, by omega⟩
  | succ n ih =>
    rw [List.range_succ, List.foldl_append]
    rcases Classical.em (P n) with hP | hP
    · refine Or.inr ⟨n, by omega, hP, by omega, ?_⟩
      simp only [List.foldl_cons, List.foldl_nil]
      exact (hF _ n).1 hP
    · have hstep : List.foldl F ((List.range n).foldl F init) [n] = (List.range n).foldl F init := by
        simp only [List.foldl_cons, List.foldl_nil]
        exact (hF _ n).2 hP
      rw [hstep]
      rcases ih with ⟨heq, hno⟩ | ⟨i, hi, hPi, hno, heq⟩
      · refine Or.inl ⟨heq, ?_⟩
        intro i hi
        by_cases h : i = n
        · subst h; exact hP
        · exact hno i (by omega)
      · refine Or.inr ⟨i, by omega, hPi, ?_, heq⟩
        intro j hij hj
        by_cases h : j = n
        · subst h; exact hP
        · exact hno j hij (by omega)

/-! ### Characterization of the maximum level -/

theorem maxstep_le_foldl {α : Type} (l : List (Tree α × Nat)) (b : Nat) :
    b ≤ l.foldl (fun m c => if m < c.2 then c.2 else m) b := by
  induction l generalizing b with
  | nil => simp
  | cons a l ih =>
    rw [List.foldl_cons]
    exact le_trans (by split <;> omega) (ih _)

theorem maxstep_mem_le {α : Type} (l : List (Tree α × Nat)) (b : Nat) :
    ∀ e ∈ l, e.2 ≤ l.foldl (fun m c => if m < c.2 then c.2 else m) b := by
  induction l generalizing b with
  | nil => simp
  | cons a l ih =>
    intro e he
    rw [List.foldl_cons]
    rcases List.mem_cons.1 he with h | h
    · subst h
      exact le_trans (by split <;> omega) (maxstep_le_foldl l _)
    · exact ih _ e h

theorem maxstep_attained {α : Type} (l : List (Tree α × Nat)) (b : Nat) :
    l.foldl (fun m c => if m < c.2 then c.2 else m) b = b ∨
    ∃ e ∈ l, l.foldl (fun m c => if m < c.2 then c.2 else m) b = e.2 := by
  induction l generalizing b with
  | nil => exact Or.inl rfl
  | cons a l ih =>
    rw [List.foldl_cons]
    rcases ih (if b < a.2 then a.2 else b) with h | ⟨e, he, h⟩
    · by_cases hab : b < a.2
      · exact Or.inr ⟨a, List.mem_cons_self a l, by rw [h]; simp [hab]⟩
      · exact Or.inl (by rw [h]; simp [hab])
    · exact Or.inr ⟨e, List.mem_cons_of_mem a he, h⟩

theorem maxLevel_ge {α : Type} (L : List (Tree α × Nat)) (i : Nat) (hi : i < L.length) :
    depthAt L i ≤ maxLevel L := by
  rw [depthAt_eq L i hi]
  exact maxstep_mem_le L _ (L[i]) (List.getElem_mem hi)

theorem maxLevel_attained {α : Type} (L : List (Tree α × Nat)) (hne : 0 < L.length) :
    ∃ i, i < L.length ∧ depthAt L i = maxLevel L := by
  rcases maxstep_attained L (depthAt L 0) with h | ⟨e, he, h⟩
  · exact ⟨0, hne, h.symm⟩
  · obtain ⟨n, hn, hne2⟩ := List.getElem_of_mem he
    refine ⟨n, hn, ?_⟩
    rw [depthAt_eq L n hn, hne2]
    exact h.symm

/-! ### Characterization of the deepest-element and nearest-parent scans -/

theorem getDeepest_lt {α : Type} (L : List (Tree α × Nat)) (hne : 0 < L.length) :
    getIndexOfDeepestElement L < L.length := by
  unfold getIndexOfDeepestElement
  by_cases hm : maxLevel L = 1
  · rw [if_pos hm]; omega
  · rw [if_neg hm]
    obtain ⟨i, hi, hdi⟩ := maxLevel_attained L hne
    rcases foldl_range_last
        (fun last k => if depthAt L k = maxLevel L then k else last)
        (fun k => depthAt L k = maxLevel L) (fun k => k) 1
        (by intro b k; constructor <;> intro h <;> simp [h]) L.length with
      ⟨_, hno⟩ | ⟨k, hk, _, _, heq⟩
    · exact absurd hdi (hno i hi)
    · rw [heq]; exact hk

theorem getDeepest_spec {α : Type} (L : List (Tree α × Nat)) (hne : 0 < L.length)
    (hd : ∀ i, i < L.length → 1 ≤ depthAt L i) :
    depthAt L (getIndexOfDeepestElement L) = maxLevel L ∧
    ∀ j, getIndexOfDeepestElement L < j → j < L.length → depthAt L j ≠ maxLevel L := by
  unfold getIndexOfDeepestElement
  by_cases hm : maxLevel L = 1
  · rw [if_pos hm]
    have hall : ∀ i, i < L.length → depthAt L i = 1 := by
      intro i hi
      have h1 := hd i hi
      have h2 := maxLevel_ge L i hi
      omega
    constructor
    · rw [hall _ (by omega), hm]
    · intro j h1 h2
      omega
  · rw [if_neg hm]
    obtain ⟨i, hi, hdi⟩ := maxLevel_attained L hne
    rcases foldl_range_last
        (fun last k => if depthAt L k = maxLevel L then k else last)
        (fun k => depthAt L k = maxLevel L) (fun k => k) 1
        (by intro b k; constructor <;> intro h <;> simp [h]) L.length with
      ⟨_, hno⟩ | ⟨k, hk, hPk, hno, heq⟩
    · exact absurd hdi (hno i hi)
    · rw [heq]
      exact ⟨hPk, hno⟩

theorem getNearestParent_none {α : Type} (L : List (Tree α × Nat)) (iD : Nat)
    (h : getIndexOfNearestParentElementOf iD L = none) :
    ∀ j, j < iD → (depthAt L j : Int) ≠ (depthAt L iD : Int) - 1 := by
  rcases foldl_range_last
      (fun last k => if (depthAt L k : Int) = (depthAt L iD : Int) - 1 then some k else last)
      (fun k => (depthAt L k : Int) = (depthAt L iD : Int) - 1) (fun k => some k) none
      (by intro b k; constructor <;> intro hh <;> simp [hh]) iD with
    ⟨_, hno⟩ | ⟨k, hk, hPk, _, heq⟩
  · exact hno
  · rw [getIndexOfNearestParentElementOf] at h
    rw [h] at heq
    exact absurd heq.symm (by simp)

theorem getNearestParent_some {α : Type} (L : List (Tree α × Nat)) (iD p : Nat)
    (h : getIndexOfNearestParentElementOf iD L = some p) :
    p < iD ∧ (depthAt L p : Int) = (depthAt L iD : Int) - 1 := by
  rcases foldl_range_last
      (fun last k => if (depthAt L k : Int) = (depthAt L iD : Int) - 1 then some k else last)
      (fun k => (depthAt L k : Int) = (depthAt L iD : Int) - 1) (fun k => some k) none
      (by intro b k; constructor <;> intro hh <;> simp [hh]) iD with
    ⟨heq, _⟩ | ⟨k, hk, hPk, _, heq⟩
  · rw [getIndexOfNearestParentElementOf] at h
    rw [h] at heq
    exact absurd heq (by simp)
  · rw [getIndexOfNearestParentElementOf] at h
    rw [h] at heq
    have hkp : k = p := by
      have := heq.symm
      simpa using this
    subst hkp
    exact ⟨hk, hPk⟩

/-! ### Equations and length facts for the assembly step -/

theorem assembleStep_root (R : Tree Nat) (L : List (Tree Nat × Nat)) (hne : 0 < L.length)
    (hpar : getIndexOfNearestParentElementOf (getIndexOfDeepestElement L) L = none) :
    assembleStep R L =
      (R.prependChild (entryAt L (getIndexOfDeepestElement L)).1,
        L.eraseIdx (getIndexOfDeepestElement L)) := by
  have hiD := getDeepest_lt L hne
  simp only [assembleStep, get?_eq_entryAt L _ hiD, hpar]

theorem assembleStep_parent (R : Tree Nat) (L : List (Tree Nat × Nat)) (hne : 0 < L.length)
    (p : Nat) (hpar : getIndexOfNearestParentElementOf (getIndexOfDeepestElement L) L = some p)
    (hp : p < L.length) :
    assembleStep R L =
      (R, (L.set p ((entryAt L p).1.prependChild (entryAt L (getIndexOfDeepestElement L)).1,
            (entryAt L p).2)).eraseIdx (getIndexOfDeepestElement L)) := by
  have hiD := getDeepest_lt L hne
  simp only [assembleStep, get?_eq_entryAt L _ hiD, hpar, get?_eq_entryAt L p hp]

theorem assembleStep_length {α : Type} (R : Tree α) (L : List (Tree α × Nat))
    (hne : 0 < L.length) : ((assembleStep R L).2).length = L.length - 1 := by
  have hiD := getDeepest_lt L hne
  simp only [assembleStep, List.get?_eq_getElem?, List.getElem?_eq_getElem hiD]
  cases hpar : getIndexOfNearestParentElementOf (getIndexOfDeepestElement L) L with
  | none => simp [List.length_eraseIdx, hiD]
  | some p =>
    have hplt := (getNearestParent_some L _ p hpar).1
    have hp : p < L.length := lt_trans hplt hiD
    simp [List.getElem?_eq_getElem hp, List.length_eraseIdx, List.length_set, hiD]

theorem assembleLoop_length {α : Type} :
    ∀ (k : Nat) (R : Tree α) (L : List (Tree α × Nat)), k ≤ L.length →
      ((assembleLoop k (R, L)).2).length = L.length - k := by
  intro k
  induction k with
  | zero => intro R L _; simp [assembleLoop]
  | succ k ih =>
    intro R L h
    have hne : 0 < L.length := by omega
    have hnil : L ≠ [] := List.length_pos.1 hne
    show ((assembleLoop (k + 1) (R, L)).2).length = L.length - (k + 1)
    rw [assembleLoop, if_neg (by rw [List.isEmpty_eq_false.2 hnil]; simp)]
    have hlen := assembleStep_length R L hne
    have := ih (assembleStep R L).1 (assembleStep R L).2 (by omega)
    rw [hlen] at this
    have heta : assembleLoop k (assembleStep R L) =
        assembleLoop k ((assembleStep R L).1, (assembleStep R L).2) := rfl
    rw [heta, this]
    omega

/-! ### Order preservation of the assembly loop -/

theorem Ordered.prependChild (a c : Tree Nat) (ha : Ordered a) (hc : Ordered c)
    (h : ∀ y ∈ a.children, Tree.label c < Tree.label y) : Ordered (a.prependChild c) := by
  cases a with
  | node l cs =>
    cases ha with
    | node _ _ hch hos =>
      refine Ordered.node _ _ ?_ ?_
      · rw [List.chain'_cons']
        refine ⟨?_, hch⟩
        intro y hy
        cases cs with
        | nil => simp at hy
        | cons z zs =>
          have hz : z = y := by simpa using hy
          subst hz
          exact h z (List.mem_cons_self _ _)
      · intro x hx
        rcases List.mem_cons.1 hx with h1 | h1
        · subst h1; exact hc
        · exact hos x h1

theorem assembleLoop_ordered :
    ∀ (n : Nat) (R : Tree Nat) (L : List (Tree Nat × Nat)),
      L.length ≤ n → depthsPos L → validChain L → labelsMono L → allOrdered L →
      childBound L → Ordered R → rootBound R L →
      Ordered (assembleLoop n (R, L)).1 := by
  intro n
  induction n with
  | zero =>
    intro R L _ _ _ _ _ _ hR _
    exact hR
  | succ n ih =>
    intro R L hlen hd hv hm ho hc hR hrB
    by_cases hLnil : L = []
    · subst hLnil
      rw [assembleLoop, if_pos (by simp)]
      exact hR
    · have hne : 0 < L.length := List.length_pos.2 hLnil
      have hiD := getDeepest_lt L hne
      have hdep : ∀ i, i < L.length → 1 ≤ depthAt L i := by
        intro i hi
        rw [depthAt_eq_entryAt]
        exact hd i hi
      obtain ⟨hmax_d, hlast⟩ := getDeepest_spec L hne hdep
      have hunfold : assembleLoop (n + 1) (R, L) = assembleLoop n (assembleStep R L) := by
        rw [assembleLoop, if_neg (by rw [List.isEmpty_eq_false.2 hLnil]; simp)]
      rw [hunfold]
      cases hpar : getIndexOfNearestParentElementOf (getIndexOfDeepestElement L) L with
      | none =>
        -- the deepest element is attached to the root; all depths are 1 here
        have hm1 : maxLevel L = 1 := by
          by_contra hm1
          have h2 : 2 ≤ (entryAt L (getIndexOfDeepestElement L)).2 := by
            have h1 := hdep _ hiD
            rw [depthAt_eq_entryAt] at h1 hmax_d
            omega
          obtain ⟨j, hji, hjd⟩ := hv _ hiD h2
          have hne2 := getNearestParent_none L _ hpar j hji
          rw [depthAt_eq_entryAt L j, depthAt_eq_entryAt L (getIndexOfDeepestElement L)] at hne2
          omega
        have hall1 : ∀ i, i < L.length → (entryAt L i).2 = 1 := by
          intro i hi
          have h1 := hd i hi
          have h2 := maxLevel_ge L i hi
          rw [depthAt_eq_entryAt] at h2
          omega
        have hiDlast : getIndexOfDeepestElement L = L.length - 1 := by
          by_contra hne3
          have hx := hlast (getIndexOfDeepestElement L + 1) (by omega) (by omega)
          rw [depthAt_eq_entryAt] at hx
          exact hx (by rw [hall1 _ (by omega), hm1])
        rw [assembleStep_root R L hne hpar]
        have hE : ∀ j, entryAt (L.eraseIdx (getIndexOfDeepestElement L)) j =
            if j < getIndexOfDeepestElement L then entryAt L j else entryAt L (j + 1) :=
          entryAt_eraseIdx L _
        have hlenE : (L.eraseIdx (getIndexOfDeepestElement L)).length = L.length - 1 := by
          simp [List.length_eraseIdx, hiD]
        apply ih
        · omega
        · intro i hi
          rw [hlenE] at hi
          rw [hE, if_pos (by omega)]
          exact hd i (by omega)
        · intro i hi h2
          rw [hlenE] at hi
          rw [hE, if_pos (by omega)] at h2
          obtain ⟨j, hj, hjd⟩ := hv i (by omega) h2
          refine ⟨j, hj, ?_⟩
          rw [hE, if_pos (by omega), hE, if_pos (by omega)]
          exact hjd
        · intro i j hij hj
          rw [hlenE] at hj
          rw [hE, if_pos (by omega), hE, if_pos (by omega)]
          exact hm i j hij (by omega)
        · intro i hi
          rw [hlenE] at hi
          rw [hE, if_pos (by omega)]
          exact ho i (by omega)
        · intro i j hi hj hdeq c hcmem
          rw [hlenE] at hi hj
          rw [hE, if_pos (by omega)] at hdeq hcmem ⊢
          rw [hE, if_pos (by omega)] at hdeq
          exact hc i j (by omega) (by omega) hdeq c hcmem
        · apply Ordered.prependChild R _ hR (ho _ hiD)
          intro y hy
          exact hrB _ hiD (by rw [hall1 _ hiD]) y hy
        · intro j hj hj1 c hcmem
          rw [hlenE] at hj
          rw [Tree.children_prependChild] at hcmem
          rw [hE, if_pos (by omega)] at hj1 ⊢
          rcases List.mem_cons.1 hcmem with h1 | h1
          · subst h1
            exact hm j _ (by omega) hiD
          · exact hrB j (by omega) hj1 c h1
      | some p =>
        -- the deepest element is prepended to the nearest parent entry
        obtain ⟨hplt, hpd⟩ := getNearestParent_some L _ p hpar
        have hp : p < L.length := lt_trans hplt hiD
        have hpd1 : 1 ≤ depthAt L p := hdep p hp
        have hpdN : (entryAt L p).2 + 1 = (entryAt L (getIndexOfDeepestElement L)).2 := by
          rw [← depthAt_eq_entryAt, ← depthAt_eq_entryAt]
          omega
        rw [assembleStep_parent R L hne p hpar hp]
        have hlenS :
            (L.set p ((entryAt L p).1.prependChild (entryAt L (getIndexOfDeepestElement L)).1,
              (entryAt L p).2)).length = L.length := List.length_set L p _
        have hlenE :
            ((L.set p ((entryAt L p).1.prependChild (entryAt L (getIndexOfDeepestElement L)).1,
              (entryAt L p).2)).eraseIdx (getIndexOfDeepestElement L)).length = L.length - 1 := by
          rw [List.length_eraseIdx]
          rw [hlenS]
          simp [hiD]
        have hE : ∀ j,
            entryAt ((L.set p ((entryAt L p).1.prependChild
                (entryAt L (getIndexOfDeepestElement L)).1,
                (entryAt L p).2)).eraseIdx (getIndexOfDeepestElement L)) j =
              if j < getIndexOfDeepestElement L then
                (if p = j then
                  ((entryAt L p).1.prependChild (entryAt L (getIndexOfDeepestElement L)).1,
                    (entryAt L p).2)
                 else entryAt L j)
              else entryAt L (j + 1) := by
          intro j
          rw [entryAt_eraseIdx]
          by_cases hj : j < getIndexOfDeepestElement L
          · rw [if_pos hj, if_pos hj, entryAt_set]
            by_cases hpj : p = j
            · rw [if_pos ⟨hpj, hp⟩]
              rw [if_pos hpj]
            · rw [if_neg (by intro hcon; exact hpj hcon.1)]
              rw [if_neg hpj]
          · rw [if_neg hj, if_neg hj, entryAt_set]
            rw [if_neg (by intro hcon; omega)]
        have hDepth : ∀ j, j < L.length - 1 →
            (entryAt ((L.set p ((entryAt L p).1.prependChild
                (entryAt L (getIndexOfDeepestElement L)).1,
                (entryAt L p).2)).eraseIdx (getIndexOfDeepestElement L)) j).2 =
              (entryAt L (if j < getIndexOfDeepestElement L then j else j + 1)).2 := by
          intro j hj
          rw [hE]
          by_cases h1 : j < getIndexOfDeepestElement L
          · rw [if_pos h1, if_pos h1]
            by_cases h2 : p = j
            · subst h2
              rw [if_pos rfl]
            · rw [if_neg h2]
          · rw [if_neg h1, if_neg h1]
        have hLabel : ∀ j, j < L.length - 1 →
            ((entryAt ((L.set p ((entryAt L p).1.prependChild
                (entryAt L (getIndexOfDeepestElement L)).1,
                (entryAt L p).2)).eraseIdx (getIndexOfDeepestElement L)) j).1).label =
              ((entryAt L (if j < getIndexOfDeepestElement L then j else j + 1)).1).label := by
          intro j hj
          rw [hE]
          by_cases h1 : j < getIndexOfDeepestElement L
          · rw [if_pos h1, if_pos h1]
            by_cases h2 : p = j
            · rw [if_pos h2, Tree.label_prependChild, h2]
            · rw [if_neg h2]
          · rw [if_neg h1, if_neg h1]
        apply ih
        · omega
        · -- depthsPos
          intro i hi
          rw [hlenE] at hi
          rw [← depthAt_eq_entryAt, depthAt_eq_entryAt, hDepth i hi]
          by_cases h1 : i < getIndexOfDeepestElement L
          · rw [if_pos h1]; exact hd i (by omega)
          · rw [if_neg h1]; exact hd (i + 1) (by omega)
        · -- validChain
          intro i hi h2
          rw [hlenE] at hi
          rw [← depthAt_eq_entryAt, depthAt_eq_entryAt, hDepth i hi] at h2
          obtain ⟨j, hj, hjd⟩ := hv (if i < getIndexOfDeepestElement L then i else i + 1)
            (by split <;> omega) h2
          have hjlen : j < L.length := by
            have : (if i < getIndexOfDeepestElement L then i else i + 1) < L.length := by
              split <;> omega
            omega
          have hjne : j ≠ getIndexOfDeepestElement L := by
            intro hcon
            subst hcon
            have hle := maxLevel_ge L (if i < getIndexOfDeepestElement L then i else i + 1)
              (by split <;> omega)
            rw [depthAt_eq_entryAt] at hle hmax_d
            omega
          refine ⟨if j < getIndexOfDeepestElement L then j else j - 1, ?_, ?_⟩
          · by_cases hcase : j < getIndexOfDeepestElement L
            · rw [if_pos hcase]
              by_cases hcase2 : i < getIndexOfDeepestElement L
              · rw [if_pos hcase2] at hj; omega
              · rw [if_neg hcase2] at hj; omega
            · rw [if_neg hcase]
              by_cases hcase2 : i < getIndexOfDeepestElement L
              · rw [if_pos hcase2] at hj; omega
              · rw [if_neg hcase2] at hj; omega
          · have hjlt : (if j < getIndexOfDeepestElement L then j else j - 1) < L.length - 1 := by
              by_cases hcase : j < getIndexOfDeepestElement L
              · simp only [if_pos hcase]
                split at hj <;> omega
              · simp only [if_neg hcase]
                split at hj <;> omega
            rw [← depthAt_eq_entryAt, ← depthAt_eq_entryAt, depthAt_eq_entryAt,
              depthAt_eq_entryAt, hDepth _ hjlt, hDepth i hi]
            have harg : (if (if j < getIndexOfDeepestElement L then j else j - 1) <
                getIndexOfDeepestElement L then
                  (if j < getIndexOfDeepestElement L then j else j - 1)
                else (if j < getIndexOfDeepestElement L then j else j - 1) + 1) = j := by
              by_cases hcase : j < getIndexOfDeepestElement L
              · simp [hcase]
              · have hjgt : getIndexOfDeepestElement L < j := by omega
                rw [if_neg hcase, if_neg (by omega)]
                omega
            rw [harg]
            exact hjd
        · -- labelsMono
          intro i j hij hj
          rw [hlenE] at hj
          rw [hLabel i (by omega), hLabel j hj]
          have h1 : (if i < getIndexOfDeepestElement L then i else i + 1) <
              (if j < getIndexOfDeepestElement L then j else j + 1) := by
            split <;> split <;> omega
          have h2 : (if j < getIndexOfDeepestElement L then j else j + 1) < L.length := by
            split <;> omega
          exact hm _ _ h1 h2
        · -- allOrdered
          intro i hi
          rw [hlenE] at hi
          rw [hE]
          by_cases h1 : i < getIndexOfDeepestElement L
          · rw [if_pos h1]
            by_cases h2 : p = i
            · rw [if_pos h2]
              apply Ordered.prependChild _ _ (ho p hp) (ho _ hiD)
              intro y hy
              exact hc p _ hp hiD hpdN.symm y hy
            · rw [if_neg h2]
              exact ho i (by omega)
          · rw [if_neg h1]
            exact ho (i + 1) (by omega)
        · -- childBound
          intro i j hi hj hdeq c hcmem
          rw [hlenE] at hi hj
          rw [← depthAt_eq_entryAt, depthAt_eq_entryAt, hDepth j hj, hDepth i hi] at hdeq
          rw [hLabel j hj]
          rw [hE] at hcmem
          have hmaxE : (entryAt L (getIndexOfDeepestElement L)).2 = maxLevel L := by
            rw [← depthAt_eq_entryAt]
            exact hmax_d
          by_cases h1 : i < getIndexOfDeepestElement L
          · rw [if_pos h1] at hcmem
            rw [if_pos h1] at hdeq
            by_cases h2 : p = i
            · -- the updated parent entry: its children are the deepest tree plus
              -- the previously attached children
              rw [if_pos h2] at hcmem
              rw [Tree.children_prependChild] at hcmem
              rw [← h2] at hdeq
              -- the entry at position j sits at the maximum depth, hence left of
              -- the deepest index
              have hojd : (entryAt L (if j < getIndexOfDeepestElement L then j else j + 1)).2 =
                  maxLevel L := by omega
              have hjlt : j < getIndexOfDeepestElement L := by
                by_contra hcon
                have hx := hlast (j + 1) (by omega) (by omega)
                rw [depthAt_eq_entryAt] at hx
                rw [if_neg hcon] at hojd
                exact hx hojd
              rw [if_pos hjlt] at hdeq ⊢
              rcases List.mem_cons.1 hcmem with hcc | hcc
              · subst hcc
                exact hm j _ hjlt hiD
              · exact hc p j hp (by omega) hdeq c hcc
            · rw [if_neg h2] at hcmem
              exact hc i _ (by omega) (by split <;> omega) hdeq c hcmem
          · rw [if_neg h1] at hcmem hdeq
            exact hc (i + 1) _ (by omega) (by split <;> omega) hdeq c hcmem
        · exact hR
        · -- rootBound
          intro j hj hj1 c hcmem
          rw [hlenE] at hj
          rw [← depthAt_eq_entryAt, depthAt_eq_entryAt, hDepth j hj] at hj1
          rw [hLabel j hj]
          refine hrB _ ?_ ?_ c hcmem
          · split <;> omega
          · rw [← depthAt_eq_entryAt] at hj1 ⊢
            exact hj1

/-! ### The initial pending list of a group -/

theorem length_initialPending (ds : List Nat) : (initialPending ds).length = ds.length := by
  simp [initialPending]

theorem entryAt_initialPending (ds : List Nat) (i : Nat) (hi : i < ds.length) :
    entryAt (initialPending ds) i = (Tree.node i [], ds.getD i 0) := by
  rw [entryAt_eq_getElem _ i (by rw [length_initialPending]; exact hi)]
  simp [initialPending]

/-! ### Characterization of the main-line collection loop -/

theorem mainLinesGo_mem (ls : List String) (i0 : Nat) :
    ∀ e ∈ mainLinesGo ls i0,
      i0 ≤ e.2 ∧ e.2 < i0 + ls.length ∧ (ls.get? (e.2 - i0)).getD "" = e.1 ∧ level e.1 = 0 := by
  induction ls generalizing i0 with
  | nil => intro e he; simp [mainLinesGo] at he
  | cons l ls ih =>
    intro e he
    rw [mainLinesGo] at he
    by_cases hl : level l = 0
    · rw [if_pos hl] at he
      rcases List.mem_cons.1 he with h | h
      · subst h
        refine ⟨le_refl _, by simp only [List.length_cons]; omega, ?_, hl⟩
        simp
      · obtain ⟨h1, h2, h3, h4⟩ := ih (i0 + 1) e h
        refine ⟨by omega, by simp only [List.length_cons] at h2 ⊢; omega, ?_, h4⟩
        have harr : e.2 - i0 = (e.2 - (i0 + 1)) + 1 := by omega
        rw [harr, List.get?_cons_succ]
        exact h3
    · rw [if_neg hl] at he
      obtain ⟨h1, h2, h3, h4⟩ := ih (i0 + 1) e he
      refine ⟨by omega, by simp only [List.length_cons] at h2 ⊢; omega, ?_, h4⟩
      have harr : e.2 - i0 = (e.2 - (i0 + 1)) + 1 := by omega
      rw [harr, List.get?_cons_succ]
      exact h3

theorem mainLinesGo_complete (ls : List String) (i0 : Nat) :
    ∀ k, k < ls.length → level ((ls.get? k).getD "") = 0 →
      ((ls.get? k).getD "", i0 + k) ∈ mainLinesGo ls i0 := by
  induction ls generalizing i0 with
  | nil => intro k hk _; simp at hk
  | cons l ls ih =>
    intro k hk hlev
    rw [mainLinesGo]
    cases k with
    | zero =>
      rw [List.get?_cons_zero] at hlev ⊢
      simp only [Option.getD_some] at hlev ⊢
      rw [if_pos hlev]
      exact List.mem_cons_self _ _
    | succ k =>
      rw [List.get?_cons_succ] at hlev ⊢
      have hmem := ih (i0 + 1) k (by simpa using hk) hlev
      have harr : i0 + (k + 1) = (i0 + 1) + k := by omega
      rw [harr]
      by_cases hl : level l = 0
      · rw [if_pos hl]
        exact List.mem_cons_of_mem _ hmem
      · rw [if_neg hl]
        exact hmem

theorem mainLinesGo_sorted (ls : List String) (i0 : Nat) :
    List.Pairwise (fun a b => a.2 < b.2) (mainLinesGo ls i0) := by
  induction ls generalizing i0 with
  | nil => simp [mainLinesGo]
  | cons l ls ih =>
    rw [mainLinesGo]
    by_cases hl : level l = 0
    · rw [if_pos hl]
      refine List.pairwise_cons.2 ⟨?_, ih (i0 + 1)⟩
      intro e he
      have h1 := (mainLinesGo_mem ls (i0 + 1) e he).1
      show i0 < e.2
      omega
    · rw [if_neg hl]
      exact ih (i0 + 1)

/-! ### Characterization of splitting on a separator -/

theorem splitChar_ne_nil (sep : Char) (l : List Char) : splitChar sep l ≠ [] := by
  cases l with
  | nil => simp [splitChar]
  | cons c cs =>
    rw [splitChar]
    by_cases h : c = sep
    · simp [h]
    · rw [if_neg h]
      cases hs : splitChar sep cs <;> simp

theorem splitChar_headD (sep : Char) (l : List Char) :
    (splitChar sep l).headD [] = l.takeWhile (fun c => !(c == sep)) := by
  induction l with
  | nil => rfl
  | cons c cs ih =>
    rw [splitChar, List.takeWhile_cons]
    by_cases h : c = sep
    · rw [if_pos h]
      simp [h]
    · rw [if_neg h]
      cases hs : splitChar sep cs with
      | nil => exact absurd hs (splitChar_ne_nil sep cs)
      | cons t ts =>
        rw [hs] at ih
        simp only [List.headD_cons] at ih
        simp only [List.headD_cons]
        rw [ih]
        simp [h]

theorem splitChar_getD_one (sep : Char) (l : List Char) (h : sep ∈ l) :
    (splitChar sep l).getD 1 [] =
      ((l.dropWhile (fun c => !(c == sep))).drop 1).takeWhile (fun c => !(c == sep)) := by
  induction l with
  | nil => simp at h
  | cons c cs ih =>
    rw [splitChar]
    by_cases hc : c = sep
    · rw [if_pos hc, List.getD_cons_succ]
      have hhead : (splitChar sep cs).getD 0 [] = (splitChar sep cs).headD [] := by
        cases splitChar sep cs <;> rfl
      rw [hhead, splitChar_headD, List.dropWhile_cons]
      have hpc : (!(c == sep)) = false := by simp [hc]
      rw [hpc]
      simp
    · rw [if_neg hc]
      have hmem : sep ∈ cs := by
        rcases List.mem_cons.1 h with h1 | h1
        · exact absurd h1.symm hc
        · exact h1
      cases hs : splitChar sep cs with
      | nil => exact absurd hs (splitChar_ne_nil sep cs)
      | cons t ts =>
        have h1 : (((c :: t) :: ts)).getD 1 [] = (t :: ts).getD 1 [] := by
          rw [List.getD_cons_succ, List.getD_cons_succ]
        rw [h1, ← hs, ih hmem, List.dropWhile_cons]
        have hpc : (!(c == sep)) = true := by simp [hc]
        rw [hpc]
        simp

/-! ### Claim theorems -/

/-- C1: for every template group whose lines form a valid ancestor chain
(every line of depth at least 2 has an earlier line at depth exactly one
less; depth-1 lines attach to the group root), the repeated
pick-deepest / attach-by-front-insertion reduction of the Tree Assembler
produces a tree that preserves source order: at every nesting level of the
output tree the children of each node carry strictly increasing source
positions, that is, they appear left to right in the order of their lines. -/
theorem C1_assembler_preserves_source_order (ds : List Nat) (r : Nat)
    (hd : ∀ d ∈ ds, 1 ≤ d)
    (hv : ∀ i, i < ds.length → 2 ≤ ds.getD i 0 →
      ∃ j, j < i ∧ ds.getD j 0 + 1 = ds.getD i 0) :
    Ordered (assemble (Tree.node r []) (initialPending ds)) := by
  unfold assemble
  apply assembleLoop_ordered
  · exact le_refl _
  · intro i hi
    rw [length_initialPending] at hi
    rw [entryAt_initialPending ds i hi]
    rw [List.getD_eq_getElem ds 0 hi]
    exact hd ds[i] (List.getElem_mem hi)
  · intro i hi h2
    rw [length_initialPending] at hi
    rw [entryAt_initialPending ds i hi] at h2
    obtain ⟨j, hj, hjd⟩ := hv i hi h2
    refine ⟨j, hj, ?_⟩
    rw [entryAt_initialPending ds j (by omega), entryAt_initialPending ds i hi]
    exact hjd
  · intro i j hij hj
    rw [length_initialPending] at hj
    rw [entryAt_initialPending ds i (by omega), entryAt_initialPending ds j hj]
    exact hij
  · intro i hi
    rw [length_initialPending] at hi
    rw [entryAt_initialPending ds i hi]
    exact Ordered.node i [] List.chain'_nil (by intro c hc; simp at hc)
  · intro i j hi hj _ c hcmem
    rw [length_initialPending] at hi
    rw [entryAt_initialPending ds i hi] at hcmem
    simp [Tree.children] at hcmem
  · exact Ordered.node r [] List.chain'_nil (by intro c hc; simp at hc)
  · intro j hj _ c hcmem
    simp [Tree.children] at hcmem

/-- C1 witness: a concrete group with depths 1, 2, 2, 1. -/
theorem C1_witness :
    Ordered (assemble (Tree.node 0 []) (initialPending [1, 2, 2, 1])) :=
  C1_assembler_preserves_source_order [1, 2, 2, 1] 0 (by decide) (by decide)

/-- C2: on every non-empty pending list (whose depths are at least 1, as
holds for the child lines of a group), the index selected by the deepest
element scan is in range, its depth is the maximum depth present, and no
later entry has the maximum depth - it is the last entry at the maximum
depth, including when that maximum is 1. -/
theorem C2_deepest_is_last_at_max_depth {α : Type} (L : List (Tree α × Nat))
    (hne : 0 < L.length) (hd : ∀ i, i < L.length → 1 ≤ depthAt L i) :
    getIndexOfDeepestElement L < L.length ∧
    depthAt L (getIndexOfDeepestElement L) = maxLevel L ∧
    ∀ j, getIndexOfDeepestElement L < j → j < L.length → depthAt L j ≠ maxLevel L :=
  ⟨getDeepest_lt L hne, (getDeepest_spec L hne hd).1, (getDeepest_spec L hne hd).2⟩

/-- C2 witness: a pending list whose maximum depth is 1; the selected index
is the last one. -/
theorem C2_witness :
    getIndexOfDeepestElement
        ([(Tree.node 0 [], 1), (Tree.node 1 [], 1)] : List (Tree Nat × Nat)) <
      ([(Tree.node 0 [], 1), (Tree.node 1 [], 1)] : List (Tree Nat × Nat)).length ∧
    depthAt ([(Tree.node 0 [], 1), (Tree.node 1 [], 1)] : List (Tree Nat × Nat))
        (getIndexOfDeepestElement
          ([(Tree.node 0 [], 1), (Tree.node 1 [], 1)] : List (Tree Nat × Nat))) =
      maxLevel ([(Tree.node 0 [], 1), (Tree.node 1 [], 1)] : List (Tree Nat × Nat)) :=
  ⟨(C2_deepest_is_last_at_max_depth _ (by decide) (by decide)).1,
    (C2_deepest_is_last_at_max_depth _ (by decide) (by decide)).2.1⟩

/-- C4: evaluation of the legacy compiled assembler of `HTMLBuilder.js` at
a group with child depths 1, 2.  The nearest-parent scan returns index 0
(the depth-1 entry), but the legacy loop tests the index for truthiness,
so the depth-2 element is appended to the group root instead of the parent
at index 0; the current assembler (which checks the index against `null`)
attaches it below the depth-1 element. -/
theorem C4_legacy_parent_index_zero :
    assembleLegacy (Tree.node 0 []) [(Tree.node 1 [], 1), (Tree.node 2 [], 2)] =
      Tree.node 0 [Tree.node 2 [], Tree.node 1 []] ∧
    assemble (Tree.node 0 []) [(Tree.node 1 [], 1), (Tree.node 2 [], 2)] =
      Tree.node 0 [Tree.node 1 [Tree.node 2 []]] :=
  ⟨rfl, rfl⟩

/-- C9: the assembly loop removes exactly one entry per iteration, so the
while loop runs exactly as many iterations as there are child lines: after
k iterations the pending list has lost k entries, and after
`L.length` iterations it is empty. -/
theorem C9_termination {α : Type} (root : Tree α) (L : List (Tree α × Nat))
    (hne : 0 < L.length) :
    ((assembleStep root L).2).length = L.length - 1 ∧
    ∀ k, k ≤ L.length → ((assembleLoop k (root, L)).2).length = L.length - k :=
  ⟨assembleStep_length root L hne, fun k hk => assembleLoop_length k root L hk⟩

/-- C9 witness: a two-entry pending list; one step leaves one entry and
two steps exhaust the list. -/
theorem C9_witness :
    ((assembleStep (Tree.node 0 []) [(Tree.node 1 [], 1), (Tree.node 2 [], 2)]).2).length = 1 ∧
    ((assembleLoop 2 ((Tree.node 0 [] : Tree Nat),
        [(Tree.node 1 [], 1), (Tree.node 2 [], 2)])).2).length = 0 :=
  ⟨(C9_termination (Tree.node 0 []) [(Tree.node 1 [], 1), (Tree.node 2 [], 2)] (by decide)).1,
    (C9_termination (Tree.node 0 []) [(Tree.node 1 [], 1), (Tree.node 2 [], 2)]
      (by decide)).2 2 (by decide)⟩

/-- C3: for every extracted line sequence, the child-collection range of
group `gi` contains exactly the line indices after the group's depth-0
line and strictly before the next depth-0 line (membership is decided by
indentation depth alone); the main lines are collected sorted by source
index, and they are exactly the depth-0 lines, so the group roots are
emitted in source order. -/
theorem C3_segmentation (lines : List String) (gi : Nat)
    (hgi : gi < (mainLines lines).length) :
    (∀ k, k ∈ groupChildIdxs lines (mainLines lines) gi ↔
      (mainIdx (mainLines lines) gi < k ∧ k < lines.length ∧
        ∀ j, mainIdx (mainLines lines) gi < j → j ≤ k →
          level ((lines.get? j).getD "") ≠ 0)) ∧
    List.Pairwise (fun a b => a.2 < b.2) (mainLines lines) ∧
    (∀ e ∈ mainLines lines,
      e.2 < lines.length ∧ (lines.get? e.2).getD "" = e.1 ∧ level e.1 = 0) ∧
    (∀ k, k < lines.length → level ((lines.get? k).getD "") = 0 →
      ((lines.get? k).getD "", k) ∈ mainLines lines) := by
  have hsorted : List.Pairwise (fun a b => a.2 < b.2) (mainLines lines) :=
    mainLinesGo_sorted lines 0
  have hsound : ∀ e ∈ mainLines lines,
      e.2 < lines.length ∧ (lines.get? e.2).getD "" = e.1 ∧ level e.1 = 0 := by
    intro e he
    obtain ⟨h1, h2, h3, h4⟩ := mainLinesGo_mem lines 0 e he
    refine ⟨by omega, ?_, h4⟩
    simpa using h3
  have hcomplete : ∀ k, k < lines.length → level ((lines.get? k).getD "") = 0 →
      ((lines.get? k).getD "", k) ∈ mainLines lines := by
    intro k hk hl
    have := mainLinesGo_complete lines 0 k hk hl
    simpa using this
  refine ⟨?_, hsorted, hsound, hcomplete⟩
  have hpw := List.pairwise_iff_getElem.1 hsorted
  have hget : (mainLines lines).get? gi = some ((mainLines lines).get ⟨gi, hgi⟩) :=
    List.get?_eq_get hgi
  have hmi : mainIdx (mainLines lines) gi = ((mainLines lines).get ⟨gi, hgi⟩).2 := by
    unfold mainIdx
    rw [hget]
    rfl
  have hmain_mem := hsound _ (List.get_mem (mainLines lines) gi hgi)
  have hgci : groupChildIdxs lines (mainLines lines) gi =
      List.range' (((mainLines lines).get ⟨gi, hgi⟩).2 + 1)
        (groupBound lines (mainLines lines) gi -
          (((mainLines lines).get ⟨gi, hgi⟩).2 + 1)) := by
    unfold groupChildIdxs
    rw [hget]
  have hble : groupBound lines (mainLines lines) gi ≤ lines.length := by
    unfold groupBound
    cases hb2 : (mainLines lines).get? (gi + 1) with
    | none => exact le_refl _
    | some m2 => exact le_of_lt (hsound m2 (List.get?_mem hb2)).1
  have hsb : ((mainLines lines).get ⟨gi, hgi⟩).2 < groupBound lines (mainLines lines) gi := by
    unfold groupBound
    cases hb2 : (mainLines lines).get? (gi + 1) with
    | none => exact hmain_mem.1
    | some m2 =>
      obtain ⟨hlt2, heq2⟩ := List.get?_eq_some.1 hb2
      rw [← heq2]
      have := hpw gi (gi + 1) hgi hlt2 (by omega)
      simpa [List.get_eq_getElem] using this
  have hgap : ∀ j, ((mainLines lines).get ⟨gi, hgi⟩).2 < j →
      j < groupBound lines (mainLines lines) gi →
      level ((lines.get? j).getD "") ≠ 0 := by
    intro j hsj hjb hl0
    have hjlen : j < lines.length := lt_of_lt_of_le hjb hble
    have hmem := hcomplete j hjlen hl0
    obtain ⟨t, ht, hteq⟩ := List.getElem_of_mem hmem
    have htj : (mainLines lines)[t].2 = j := by rw [hteq]
    have hms : ((mainLines lines).get ⟨gi, hgi⟩).2 = (mainLines lines)[gi].2 := by
      rw [List.get_eq_getElem]
    have hgt : gi < t := by
      by_contra hle
      push_neg at hle
      rcases Nat.eq_or_lt_of_le hle with heq | hlt
      · subst heq
        omega
      · have := hpw t gi ht hgi hlt
        omega
    cases hb2 : (mainLines lines).get? (gi + 1) with
    | none =>
      have hlen2 : (mainLines lines).length ≤ gi + 1 := List.get?_eq_none.1 hb2
      omega
    | some m2 =>
      have hlt2 : gi + 1 < (mainLines lines).length := by
        by_contra hcon
        rw [List.get?_eq_none.2 (by omega)] at hb2
        exact absurd hb2 (by simp)
      have hm2eq : (mainLines lines)[gi + 1] = m2 := by
        rw [List.get?_eq_getElem?, List.getElem?_eq_getElem hlt2] at hb2
        exact Option.some.inj hb2
      have hble2 : (mainLines lines)[gi + 1].2 ≤ j := by
        rcases Nat.eq_or_lt_of_le (show gi + 1 ≤ t by omega) with heq | hlt3
        · subst heq
          omega
        · have := hpw (gi + 1) t hlt2 ht hlt3
          omega
      have hbeq : groupBound lines (mainLines lines) gi = m2.2 := by
        unfold groupBound
        rw [hb2]
      rw [← hm2eq] at hbeq
      omega
  intro k
  rw [hgci, hmi, List.mem_range'_1]
  constructor
  · intro hk
    have hkb : k < groupBound lines (mainLines lines) gi := by omega
    refine ⟨by omega, by omega, ?_⟩
    intro j hj1 hj2
    exact hgap j hj1 (by omega)
  · rintro ⟨h1, h2, h3⟩
    have hkb : k < groupBound lines (mainLines lines) gi := by
      unfold groupBound
      cases hb2 : (mainLines lines).get? (gi + 1) with
      | none => exact h2
      | some m2 =>
        by_contra hcon
        push_neg at hcon
        obtain ⟨hm2len, hm2line, hm2lev⟩ := hsound m2 (List.get?_mem hb2)
        have hs2 : ((mainLines lines).get ⟨gi, hgi⟩).2 < m2.2 := by
          obtain ⟨hlt2, heq2⟩ := List.get?_eq_some.1 hb2
          rw [← heq2]
          have := hpw gi (gi + 1) hgi hlt2 (by omega)
          simpa [List.get_eq_getElem] using this
        refine h3 m2.2 hs2 hcon ?_
        rw [hm2line]
        exact hm2lev
    exact ⟨by omega, by omega⟩

/-- C3 witness: the line sequence div, indented child, span; the first
group's children are exactly index 1. -/
theorem C3_witness :
    (1 ∈ groupChildIdxs ["div", ">a", "span"] (mainLines ["div", ">a", "span"]) 0) ∧
    List.Pairwise (fun a b => a.2 < b.2) (mainLines ["div", ">a", "span"]) := by
  have h := C3_segmentation ["div", ">a", "span"] 0 (by decide)
  refine ⟨(h.1 1).2 ⟨by decide, by decide, ?_⟩, h.2.1⟩
  intro j h1 h2
  have hmi0 : mainIdx (mainLines ["div", ">a", "span"]) 0 = 0 := by decide
  rw [hmi0] at h1
  have hj : j = 1 := by omega
  subst hj
  decide

/-- C5: Scenario A.  Parsing the single line
`button.btn-primary#yeah(Click!)[type=button]` (with the default attribute
separator) yields tag `button`, class list exactly `btn-primary`, id
`yeah`, a single text child with content `Click!` (for any entity decoder
that leaves `Click!` unchanged, as the host decoder does on text without
character references), and exactly the attribute `type` = `button`. -/
theorem C5_scenario_A (decode : String → String) (hdec : decode "Click!" = "Click!") :
    createElementFromLine ';' decode "button.btn-primary#yeah(Click!)[type=button]" =
      .ok { tag := "button", classes := ["btn-primary"], id := some "yeah",
            content := some "Click!", attributes := [("type", "button")], events := [] } := by
  have h : createElementFromLine ';' decode "button.btn-primary#yeah(Click!)[type=button]" =
      .ok { tag := "button", classes := ["btn-primary"], id := some "yeah",
            content := some (decode "Click!"), attributes := [("type", "button")],
            events := [] } := rfl
  rw [hdec] at h
  exact h

/-- C5 witness: the identity decoder. -/
theorem C5_witness :
    createElementFromLine ';' (fun s => s) "button.btn-primary#yeah(Click!)[type=button]" =
      .ok { tag := "button", classes := ["btn-primary"], id := some "yeah",
            content := some "Click!", attributes := [("type", "button")], events := [] } :=
  C5_scenario_A (fun s => s) rfl

/-- C6: a template that is empty or consists only of whitespace makes
`generate` return before doing any work: no tree is produced and no error
is raised, for any separator and decoder. -/
theorem C6_empty_template (sep : Char) (decode : String → String) (template : String)
    (h : ∀ c ∈ template.data, c.isWhitespace = true) :
    generate sep decode template = .ok [] := by
  have htrim : trimChars template.data = [] := by
    unfold trimChars
    rw [List.dropWhile_eq_nil_iff.2 h]
    simp
  have hlen : (jsTrim template).length = 0 := by
    show (String.mk (trimChars template.data)).length = 0
    rw [htrim]
    rfl
  unfold generate
  rw [if_pos hlen]

/-- C6 witness: a whitespace-only template. -/
theorem C6_witness :
    generate ';' (fun s => s) "  \n " = .ok [] :=
  C6_empty_template ';' (fun s => s) "  \n " (by decide)

/-- C7 counterexample to the claim as stated: on the fragment `a=b=c` the
code produces the attribute value `b` (the second fragment of the split on
`=`), not the entire substring `b=c` after the first `=`. -/
theorem C7_counterexample :
    createElementFromLine ';' (fun s => s) "div[a=b=c]" =
      .ok { tag := "div", classes := [], id := none, content := none,
            attributes := [("a", "b")], events := [] } ∧
    (("a", "b") : String × String) ≠ ("a", "b=c") :=
  ⟨rfl, by decide⟩

/-- C7 (amended): for every attribute fragment that does not start with a
digit, if the trimmed fragment contains `=` then the applied attribute has
as name the substring before the first `=` and as value the substring
strictly between the first and the second `=` (to the end if there is no
second `=`); a fragment without `=` is applied as a presence attribute
with empty value. -/
theorem C7_attr_value_between_equals (attrs : List (String × String)) (s : String)
    (hdig : firstCharIsDigit s = false) :
    ((trimChars s.data).contains '=' = true →
      applyAttrFragment attrs s =
        setAttribute attrs ⟨(trimChars s.data).takeWhile (fun c => !(c == '='))⟩
          ⟨(((trimChars s.data).dropWhile (fun c => !(c == '='))).drop 1).takeWhile
            (fun c => !(c == '='))⟩) ∧
    ((trimChars s.data).contains '=' = false →
      applyAttrFragment attrs s = setAttribute attrs ⟨trimChars s.data⟩ "") := by
  constructor
  · intro hcon
    have hmem : '=' ∈ trimChars s.data := List.elem_iff.1 hcon
    unfold applyAttrFragment
    rw [if_neg (by rw [hdig]; simp), if_pos hcon]
    simp only [splitChar_getD_one '=' (trimChars s.data) hmem, splitChar_headD]
  · intro hcon
    unfold applyAttrFragment
    rw [if_neg (by rw [hdig]; simp), if_neg (by rw [hcon]; simp)]

/-- C7 witness: the fragment `a=b=c`, whose value is the text between the
first and second `=`. -/
theorem C7_witness :
    applyAttrFragment [] "a=b=c" =
      setAttribute [] ⟨(trimChars "a=b=c".data).takeWhile (fun c => !(c == '='))⟩
        ⟨(((trimChars "a=b=c".data).dropWhile (fun c => !(c == '='))).drop 1).takeWhile
          (fun c => !(c == '='))⟩ :=
  (C7_attr_value_between_equals [] "a=b=c" (by decide)).1 (by decide)

/-- C8: a registration call fails (an error is thrown and the state is
left unchanged) exactly when the supplied name, trigger type or callback
is absent (for the string fields: missing or empty, which is what the
falsiness test of the source accepts); when all three are present the call
succeeds, the caller's object (with its name normalized) stays in the heap
cell, and its reference is appended to the registry. -/
theorem C8_bindEvent_missing_fields (heap : List Listener) (events : List Nat) (i : Nat)
    (hi : i < heap.length) :
    ((bindEvent heap events i).2 ≠ none ↔
      (strFalsy ((heap.get? i).getD default).name = true ∨
        strFalsy ((heap.get? i).getD default).type = true ∨
        ((heap.get? i).getD default).callback = none)) ∧
    ((bindEvent heap events i).2 ≠ none → (bindEvent heap events i).1 = (heap, events)) ∧
    ((bindEvent heap events i).2 = none →
      (bindEvent heap events i).1.2 = events ++ [i] ∧
      (bindEvent heap events i).1.1 =
        heap.set i { ((heap.get? i).getD default) with
          name := ((heap.get? i).getD default).name.map stripOn }) := by
  have hget : heap.get? i = some (heap.get ⟨i, hi⟩) := List.get?_eq_get hi
  unfold bindEvent
  rw [hget]
  simp only [Option.getD_some]
  by_cases h1 : strFalsy (heap.get ⟨i, hi⟩).name = true
  · rw [if_pos h1]
    refine ⟨⟨fun _ => Or.inl h1, fun _ => by simp⟩, fun _ => rfl, fun hcon => ?_⟩
    exact absurd hcon (by simp)
  · rw [if_neg h1]
    by_cases h2 : strFalsy (heap.get ⟨i, hi⟩).type = true
    · rw [if_pos h2]
      refine ⟨⟨fun _ => Or.inr (Or.inl h2), fun _ => by simp⟩, fun _ => rfl, fun hcon => ?_⟩
      exact absurd hcon (by simp)
    · rw [if_neg h2]
      by_cases h3 : (heap.get ⟨i, hi⟩).callback = none
      · rw [if_pos h3]
        refine ⟨⟨fun _ => Or.inr (Or.inr h3), fun _ => by simp⟩, fun _ => rfl, fun hcon => ?_⟩
        exact absurd hcon (by simp)
      · rw [if_neg h3]
        refine ⟨⟨fun hcon => absurd rfl hcon, fun hcon => ?_⟩, fun hcon => absurd rfl hcon,
          fun _ => ⟨rfl, rfl⟩⟩
        rcases hcon with h | h | h
        · exact absurd h h1
        · exact absurd h h2
        · exact absurd h h3

/-- C8 witness: a complete listener is stored and its index is appended. -/
theorem C8_witness :
    (bindEvent [{ name := some "click", type := some "click", callback := some 0, options := none }] [] 0).2 = none ∧
    (bindEvent [{ name := some "click", type := some "click", callback := some 0, options := none }] [] 0).1.2 = [0] := by
  have h := C8_bindEvent_missing_fields
    [{ name := some "click", type := some "click", callback := some 0, options := none }]
    [] 0 (by decide)
  have hok : (bindEvent [{ name := some "click", type := some "click", callback := some 0, options := none }] [] 0).2 = none := by decide
  exact ⟨hok, (h.2.2 hok).1⟩

/-- C10: `bindEvent` stores the caller's listener object by reference: on
success the registry gains the reference (the heap index) of the caller's
object, the name field of that same caller-owned object is overwritten
with the prefix-stripped name (`onclick` becomes `click`), and any later
mutation of the caller's object changes the stored binding (the last
registry entry always reads back as whatever the caller's cell holds). -/
theorem C10_bindEvent_stores_reference (heap : List Listener) (events : List Nat) (i : Nat)
    (hi : i < heap.length)
    (hname : ((heap.get? i).getD default).name = some "onclick")
    (htype : strFalsy ((heap.get? i).getD default).type = false)
    (hcb : ((heap.get? i).getD default).callback ≠ none) :
    (bindEvent heap events i).2 = none ∧
    (bindEvent heap events i).1.2 = events ++ [i] ∧
    ((((bindEvent heap events i).1.1).get? i).getD default) =
      { ((heap.get? i).getD default) with name := some "click" } ∧
    ∀ ev2 : Listener,
      (storedBindings (((bindEvent heap events i).1.1).set i ev2)
        ((bindEvent heap events i).1.2)).getLast? = some ev2 := by
  have hget : heap.get? i = some (heap.get ⟨i, hi⟩) := List.get?_eq_get hi
  rw [hget] at hname htype hcb
  simp only [Option.getD_some] at hname htype hcb
  have hbind : bindEvent heap events i =
      ((heap.set i { (heap.get ⟨i, hi⟩) with
          name := ((heap.get ⟨i, hi⟩).name.map stripOn) }, events ++ [i]), none) := by
    have hn1 : ¬ (strFalsy (heap.get ⟨i, hi⟩).name = true) := by
      rw [hname]
      simp [strFalsy]
    have hn2 : ¬ (strFalsy (heap.get ⟨i, hi⟩).type = true) := by
      rw [htype]
      simp
    unfold bindEvent
    rw [hget]
    simp only [if_neg hn1, if_neg hn2, if_neg hcb]
  have hstrip : (heap.get ⟨i, hi⟩).name.map stripOn = some "click" := by
    rw [hname]
    rfl
  refine ⟨by rw [hbind], by rw [hbind], ?_, ?_⟩
  · rw [hbind]
    simp only
    rw [List.get?_eq_getElem?, List.getElem?_set]
    simp only [if_pos rfl, hi, if_pos]
    rw [hstrip, hget]
    simp only [Option.getD_some]
  · intro ev2
    rw [hbind]
    simp only
    unfold storedBindings
    rw [List.map_append]
    simp only [List.map_cons, List.map_nil]
    rw [List.getLast?_concat]
    rw [List.set_set, List.get?_eq_getElem?, List.getElem?_set]
    simp [hi]

/-- C10 witness: a listener named `onclick`; after binding, the caller's
object reads back with name `click`, the registry holds its reference, and
overwriting the caller's cell changes the stored binding. -/
theorem C10_witness :
    (bindEvent [{ name := some "onclick", type := some "click", callback := some 0, options := none }] [] 0).2 = none ∧
    (bindEvent [{ name := some "onclick", type := some "click", callback := some 0, options := none }] [] 0).1.2 = [0] ∧
    ((((bindEvent [{ name := some "onclick", type := some "click", callback := some 0, options := none }] [] 0).1.1).get? 0).getD default) =
      { name := some "click", type := some "click", callback := some 0, options := none } ∧
    (storedBindings (((bindEvent [{ name := some "onclick", type := some "click", callback := some 0, options := none }] [] 0).1.1).set 0
        { name := some "hover", type := some "mouseover", callback := some 7, options := none })
      ((bindEvent [{ name := some "onclick", type := some "click", callback := some 0, options := none }] [] 0).1.2)).getLast? =
      some { name := some "hover", type := some "mouseover", callback := some 7, options := none } := by
  have h := C10_bindEvent_stores_reference
    [{ name := some "onclick", type := some "click", callback := some 0, options := none }]
    [] 0 (by decide) (by decide) (by decide) (by decide)
  exact ⟨h.1, h.2.1, h.2.2.1, h.2.2.2 _⟩

end HTMLB
